import Mathlib

/-!
Shallow embedding of the C demo program (`src/sex.c`) and verification of its
specification.  C `int` values are modelled as `Int`; every demonstration value
stays far inside the 32-bit range, so exact integer arithmetic is the faithful
model (signed overflow has no defined behaviour in C).  The mutable character
buffer is modelled as a `List Char` (the bytes before the null terminator),
and the in-place two-pointer swap loop is modelled by explicit state passing.
-/

/-- C `factorial` (src/sex.c lines 6-13): recursive factorial with
base case `n <= 1` returning 1, otherwise `n * factorial (n - 1)`. -/
def factorial (n : Int) : Int :=
  if n ≤ 1 then 1 else n * factorial (n - 1)
termination_by n.toNat
decreasing_by
  omega

/-- Fuel-counting variant of `factorial`, recording the call depth of the C
recursion: each constructor step is one activation of `factorial`;
`none` means the fuel was exhausted before the base case was reached. -/
def factorialFuel : Nat → Int → Option Int
  | 0, _ => none
  | fuel + 1, n =>
    if n ≤ 1 then some 1
    else (factorialFuel fuel (n - 1)).map (fun r => n * r)

/-- The trial-division loop of C `isPrime` (src/sex.c lines 25-31):
`for (int i = 5; i * i <= num; i += 6)` testing `num % i` and `num % (i+2)`. -/
def isPrimeLoop (num i : Int) : Bool :=
  if i * i ≤ num then
    if num % i = 0 ∨ num % (i + 2) = 0 then false
    else isPrimeLoop num (i + 6)
  else true
termination_by (num + 1 - i).toNat
decreasing_by
  have hi : i ≤ num := by
    rcases le_or_lt i 0 with h0 | h0
    · nlinarith [mul_self_nonneg i]
    · nlinarith
  omega

/-- C `isPrime` (src/sex.c lines 16-33): 6k±1 trial division. -/
def isPrime (num : Int) : Bool :=
  if num ≤ 1 then false
  else if num ≤ 3 then true
  else if num % 2 = 0 ∨ num % 3 = 0 then false
  else isPrimeLoop num 5

/-- The swap loop of C `reverseString` (src/sex.c lines 39-44):
`for (int i = 0; i < len / 2; i++)` swapping `str[i]` and `str[len-1-i]`. -/
def reverseLoop (len : Nat) (s : List Char) (i : Nat) : List Char :=
  if i < len / 2 then
    reverseLoop len
      ((s.set i (s.getD (len - 1 - i) ' ')).set (len - 1 - i) (s.getD i ' '))
      (i + 1)
  else s
termination_by len / 2 - i
decreasing_by
  omega

/-- C `reverseString` (src/sex.c lines 36-45): computes `len = strlen(str)`
once (element count before the terminator) and runs the swap loop from 0. -/
def reverseString (s : List Char) : List Char :=
  reverseLoop s.length s 0

/-- The fixed demonstration array `{3, 7, 1, 9, 4, 6, 2, 8, 5}`
(src/sex.c line 75). -/
def numbers : List Int := [3, 7, 1, 9, 4, 6, 2, 8, 5]

/-- The summation loop of `main` (src/sex.c lines 79-82): `sum += numbers[i]`
over the whole array, starting from `sum = 0`. -/
def arraySum : Int := numbers.foldl (fun acc x => acc + x) 0

/-- The average `(float)sum / size` (src/sex.c line 85), modelled as an exact
rational: at the demonstration values (45 / 9) the float division is exact. -/
def arrayAverage : Rat := (arraySum : Rat) / (numbers.length : Rat)

/-- Two-digit zero padding, as `%02d`-style rendering of the cents part. -/
def pad2 (n : Nat) : String :=
  if n < 10 then "0" ++ toString n else toString n

/-- `printf("%.2f", q)` for the nonnegative exact values arising here:
round to hundredths and print with exactly two decimal places. -/
def formatFixed2 (q : Rat) : String :=
  toString ((round (q * 100) : Int) / 100) ++ "." ++
    pad2 ((round (q * 100) : Int) % 100).toNat

/-- The loop demonstration of `main` (src/sex.c lines 68-71):
`printf("%d ", i)` for `i = 1` to `10`; each iteration appends the decimal
digits of `i` followed by one space. -/
def loopOutput : String :=
  (List.range' 1 10).foldl (fun acc i => acc ++ toString i ++ " ") ""

/-- Everything C `main` (src/sex.c lines 47-90) writes to standard output,
concatenated in program order. -/
def mainOutput : String :=
  "Welcome to the C Programming Demo!\n" ++
  "===================================\n\n" ++
  "1. Factorial of " ++ toString (5 : Int) ++ ": " ++
    toString (factorial 5) ++ "\n" ++
  "2. Is " ++ toString (17 : Int) ++ " prime? " ++
    (if isPrime 17 = true then "Yes" else "No") ++ "\n" ++
  "3. Original string: " ++ String.mk ("Hello World".data) ++ "\n" ++
  "   Reversed string: " ++ String.mk (reverseString ("Hello World".data)) ++ "\n" ++
  "4. Numbers 1-10: " ++ loopOutput ++ "\n" ++
  "5. Array sum: " ++ toString arraySum ++ "\n" ++
  "   Array average: " ++ formatFixed2 arrayAverage ++ "\n" ++
  "\nProgram completed successfully!\n"

/-- The exit status of C `main`: `return 0` (src/sex.c line 89). -/
def mainExit : Int := 0

/-- One unfolding of `factorial`, the body of the C function. -/
theorem factorial_unfold (n : Int) :
    factorial n = if n ≤ 1 then 1 else n * factorial (n - 1) := by
  rw [factorial]

/-- One unfolding of `isPrimeLoop`, the body of the C loop. -/
theorem isPrimeLoop_unfold (num i : Int) :
    isPrimeLoop num i =
      if i * i ≤ num then
        if num % i = 0 ∨ num % (i + 2) = 0 then false
        else isPrimeLoop num (i + 6)
      else true := by
  rw [isPrimeLoop]

/-- One unfolding of `reverseLoop`, the body of the C loop. -/
theorem reverseLoop_unfold (len : Nat) (s : List Char) (i : Nat) :
    reverseLoop len s i =
      if i < len / 2 then
        reverseLoop len
          ((s.set i (s.getD (len - 1 - i) ' ')).set (len - 1 - i) (s.getD i ' '))
          (i + 1)
      else s := by
  rw [reverseLoop]

/-- Helper: the base case of the C factorial. -/
theorem factorial_of_le_one (n : Int) (h : n ≤ 1) : factorial n = 1 := by
  rw [factorial_unfold, if_pos h]

/-- Helper: `factorial 5 = 120`, by unfolding the recursion. -/
theorem factorial_five : factorial 5 = 120 := by
  rw [factorial_unfold, factorial_unfold, factorial_unfold, factorial_unfold,
    factorial_unfold]
  norm_num

/-- Helper: with at least one unit of fuel and fuel at least `n.toNat`, the
fuel-counting factorial reaches the base case and computes `factorial`. -/
theorem factorialFuel_eq (fuel : Nat) :
    ∀ n : Int, 1 ≤ fuel → n.toNat ≤ fuel → factorialFuel fuel n = some (factorial n) := by
  induction fuel with
  | zero =>
    intro n h _
    omega
  | succ k ih =>
    intro n _ hn
    by_cases h1 : n ≤ 1
    · simp [factorialFuel, h1, factorial_of_le_one n h1]
    · have hk1 : 1 ≤ k := by omega
      have hk2 : (n - 1).toNat ≤ k := by omega
      have hrec : factorial n = n * factorial (n - 1) := by
        rw [factorial_unfold, if_neg h1]
      simp [factorialFuel, h1, ih (n - 1) hk1 hk2, hrec]


/-- Helper: `getD` after `set`, spelled out with the bounds check. -/
theorem getD_set (l : List Char) (m j : Nat) (x c : Char) :
    (l.set m x).getD j c = if m = j ∧ j < l.length then x else l.getD j c := by
  simp only [List.getD_eq_getElem?_getD, List.getElem?_set]
  rcases eq_or_ne m j with rfl | h
  · by_cases hl : m < l.length
    · simp [hl]
    · have hnone : l[m]? = none := List.getElem?_eq_none (by omega)
      simp [hl, hnone]
  · simp [h]

/-- Helper: `getD` inside the bounds is `getElem`. -/
theorem getD_eq_getElem_of_lt (l : List Char) (j : Nat) (h : j < l.length) (c : Char) :
    l.getD j c = l[j] := by
  rw [List.getD_eq_getElem?_getD, List.getElem?_eq_getElem h]
  rfl

/-- Helper: the swap loop never changes the length of the buffer
(fuel-indexed induction on the remaining iterations). -/
theorem reverseLoop_length_aux (len : Nat) :
    ∀ (m i : Nat) (s : List Char), len / 2 - i ≤ m →
      (reverseLoop len s i).length = s.length := by
  intro m
  induction m with
  | zero =>
    intro i s h
    rw [reverseLoop_unfold, if_neg (by omega)]
  | succ k ih =>
    intro i s h
    rw [reverseLoop_unfold]
    by_cases hc : i < len / 2
    · rw [if_pos hc, ih (i + 1) _ (by omega)]
      simp
    · rw [if_neg hc]

/-- Helper: the swap loop never changes the length of the buffer. -/
theorem reverseLoop_length (len i : Nat) (s : List Char) :
    (reverseLoop len s i).length = s.length :=
  reverseLoop_length_aux len (len / 2 - i) i s le_rfl

/-- Helper: once the loop counter reaches `len / 2`, a position satisfying
the still-to-swap condition can only be the untouched middle element. -/
theorem getD_if_center (len i j : Nat) (s : List Char) (hge : len / 2 ≤ i) :
    (if i ≤ j ∧ j + i + 1 ≤ len then s.getD (len - 1 - j) ' ' else s.getD j ' ')
      = s.getD j ' ' := by
  by_cases hc : i ≤ j ∧ j + i + 1 ≤ len
  · rw [if_pos hc]
    have hj : len - 1 - j = j := by omega
    rw [hj]
  · rw [if_neg hc]

/-- Loop invariant of the in-place reversal: starting the swap loop at index
`i`, a position in the not-yet-swapped window `[i, len-1-i]` ends up holding
the mirrored element, and every other position is left as it is. -/
theorem reverseLoop_getD_aux (len : Nat) :
    ∀ (m i : Nat) (s : List Char), s.length = len → len / 2 - i ≤ m →
      ∀ j, j < len →
        (reverseLoop len s i).getD j ' ' =
          if i ≤ j ∧ j + i + 1 ≤ len then s.getD (len - 1 - j) ' '
          else s.getD j ' ' := by
  intro m
  induction m with
  | zero =>
    intro i s hs h j hj
    rw [reverseLoop_unfold, if_neg (by omega), getD_if_center len i j s (by omega)]
  | succ k ih =>
    intro i s hs h j hj
    rw [reverseLoop_unfold]
    by_cases hc : i < len / 2
    · rw [if_pos hc]
      set s1 := (s.set i (s.getD (len - 1 - i) ' ')).set (len - 1 - i) (s.getD i ' ')
        with hs1
      have hlen1 : s1.length = len := by
        rw [hs1, List.length_set, List.length_set, hs]
      rw [ih (i + 1) s1 hlen1 (by omega) j hj]
      have key : ∀ p, p < len →
          s1.getD p ' ' =
            if len - 1 - i = p then s.getD i ' '
            else if i = p then s.getD (len - 1 - i) ' '
            else s.getD p ' ' := by
        intro p hp
        rw [hs1, getD_set, List.length_set, hs, getD_set, hs]
        by_cases h1 : len - 1 - i = p
        · rw [if_pos ⟨h1, hp⟩, if_pos h1]
        · have h1' : ¬(len - 1 - i = p ∧ p < len) := fun hh => h1 hh.1
          rw [if_neg h1', if_neg h1]
          by_cases h2 : i = p
          · rw [if_pos ⟨h2, hp⟩, if_pos h2]
          · have h2' : ¬(i = p ∧ p < len) := fun hh => h2 hh.1
            rw [if_neg h2', if_neg h2]
      by_cases hji : j = i
      · subst hji
        have hc1 : ¬(j + 1 ≤ j ∧ j + (j + 1) + 1 ≤ len) := by omega
        rw [if_neg hc1, key j hj, if_neg (by omega), if_pos rfl,
          if_pos ⟨le_rfl, by omega⟩]
      · by_cases hjm : j = len - 1 - i
        · have hc1 : ¬(i + 1 ≤ j ∧ j + (i + 1) + 1 ≤ len) := by omega
          rw [if_neg hc1, key j hj, if_pos hjm.symm,
            if_pos ⟨by omega, by omega⟩]
          have hmir : len - 1 - j = i := by omega
          rw [hmir]
        · have hcond : (i + 1 ≤ j ∧ j + (i + 1) + 1 ≤ len) ↔
              (i ≤ j ∧ j + i + 1 ≤ len) := by omega
          by_cases hc2 : i ≤ j ∧ j + i + 1 ≤ len
          · rw [if_pos (hcond.mpr hc2), if_pos hc2, key (len - 1 - j) (by omega),
              if_neg (by omega), if_neg (by omega)]
          · rw [if_neg (fun hh => hc2 (hcond.mp hh)), if_neg hc2, key j hj,
              if_neg (by omega), if_neg (by omega)]
    · rw [if_neg hc, getD_if_center len i j s (by omega)]

/-- Helper: `reverseString` preserves the length of the buffer. -/
theorem reverseString_length (s : List Char) :
    (reverseString s).length = s.length :=
  reverseLoop_length s.length 0 s

/-- Helper: after `reverseString`, position `j` holds the element that was at
the mirrored position `len - 1 - j`. -/
theorem reverseString_getD (s : List Char) (j : Nat) (hj : j < s.length) :
    (reverseString s).getD j ' ' = s.getD (s.length - 1 - j) ' ' := by
  have h := reverseLoop_getD_aux s.length (s.length / 2) 0 s rfl (by omega) j hj
  rw [reverseString, h, if_pos ⟨Nat.zero_le j, by omega⟩]

/-- Helper: characterization of the trial-division loop.  Starting at `i ≥ 1`,
the loop returns `true` exactly when no candidate `i + 6k` whose square is at
most `num` divides `num`, and no shifted candidate `i + 6k + 2` divides `num`
either (fuel-indexed induction along the loop). -/
theorem isPrimeLoop_true_iff (num : Int) :
    ∀ (fuel : Nat) (i : Int), (num + 1 - i).toNat ≤ fuel → 1 ≤ i →
      (isPrimeLoop num i = true ↔
        ∀ k : Nat, (i + 6 * k) * (i + 6 * k) ≤ num →
          ¬num % (i + 6 * k) = 0 ∧ ¬num % (i + 6 * k + 2) = 0) := by
  intro fuel
  induction fuel with
  | zero =>
    intro i hf hi
    have hni : num < i := by omega
    have hgt : ¬i * i ≤ num := by nlinarith
    rw [isPrimeLoop_unfold, if_neg hgt]
    refine ⟨fun _ k hk => absurd hk ?_, fun _ => rfl⟩
    have hk0 : (0 : Int) ≤ 6 * (k : Int) := by positivity
    nlinarith
  | succ fl ih =>
    intro i hf hi
    rw [isPrimeLoop_unfold]
    by_cases hle : i * i ≤ num
    · rw [if_pos hle]
      by_cases hdvd : num % i = 0 ∨ num % (i + 2) = 0
      · rw [if_pos hdvd]
        refine ⟨fun hff => absurd hff (by simp), fun hall => absurd hdvd ?_⟩
        have h0 := hall 0 (by simpa using hle)
        push_neg
        exact ⟨by simpa using h0.1, by simpa using h0.2⟩
      · rw [if_neg hdvd]
        push_neg at hdvd
        have hiLe : i ≤ num := by nlinarith
        have hf6 : (num + 1 - (i + 6)).toNat ≤ fl := by omega
        rw [ih (i + 6) hf6 (by omega)]
        constructor
        · intro hall k hk
          match k with
          | 0 => simpa using hdvd
          | k2 + 1 =>
            have e : i + 6 * (((k2 + 1 : Nat)) : Int) = (i + 6) + 6 * (k2 : Int) := by
              push_cast
              ring
            rw [e] at hk ⊢
            exact hall k2 hk
        · intro hall k hk
          have e : (i + 6) + 6 * (k : Int) = i + 6 * (((k + 1 : Nat)) : Int) := by
            push_cast
            ring
          rw [e] at hk ⊢
          exact hall (k + 1) hk
    · rw [if_neg hle]
      refine ⟨fun _ k hk => absurd hk ?_, fun _ => rfl⟩
      have hk0 : (0 : Int) ≤ 6 * (k : Int) := by positivity
      push_neg at hle
      nlinarith

/-- Helper: the loop characterization at the actual entry point `i = 5`. -/
theorem isPrimeLoop_five_iff (num : Int) :
    isPrimeLoop num 5 = true ↔
      ∀ k : Nat, (5 + 6 * (k : Int)) * (5 + 6 * (k : Int)) ≤ num →
        ¬num % (5 + 6 * (k : Int)) = 0 ∧ ¬num % (5 + 6 * (k : Int) + 2) = 0 :=
  isPrimeLoop_true_iff num (num + 1 - 5).toNat 5 le_rfl (by norm_num)

/-- Helper: for `num ≥ 5` with no factor 2 or 3, the trial-division loop
started at 5 answers `true` exactly when `num` is prime.  Soundness uses the
least prime factor `Nat.minFac`: for a composite it is at most `√num` and,
being neither 2 nor 3, has the form `6k+5` or `6k+7`, so the loop tests it. -/
theorem isPrimeLoop_prime_iff (num : Int) (h5 : 5 ≤ num)
    (h2 : ¬num % 2 = 0) (h3 : ¬num % 3 = 0) :
    (isPrimeLoop num 5 = true ↔ Nat.Prime num.toNat) := by
  set n := num.toNat with hn
  have hn5 : 5 ≤ n := by omega
  have hcast : ((n : Int)) = num := by omega
  have h2n : ¬2 ∣ n := by omega
  have h3n : ¬3 ∣ n := by omega
  rw [isPrimeLoop_five_iff]
  constructor
  · intro hall
    by_contra hnp
    have hp : Nat.Prime n.minFac := Nat.minFac_prime (by omega)
    have hpd : n.minFac ∣ n := Nat.minFac_dvd n
    have hsq : n.minFac ^ 2 ≤ n := Nat.minFac_sq_le_self (by omega) hnp
    rw [pow_two] at hsq
    set p := n.minFac with hpdef
    have hp2 : p ≠ 2 := by
      intro h
      rw [h] at hpd
      exact h2n hpd
    have hp3 : p ≠ 3 := by
      intro h
      rw [h] at hpd
      exact h3n hpd
    have hple : 2 ≤ p := hp.two_le
    have hpm2 : ¬2 ∣ p := by
      intro hdv
      rcases hp.eq_one_or_self_of_dvd 2 hdv with h | h
      · omega
      · exact hp2 h.symm
    have hpm3 : ¬3 ∣ p := by
      intro hdv
      rcases hp.eq_one_or_self_of_dvd 3 hdv with h | h
      · omega
      · exact hp3 h.symm
    have hpInt : ((p : Int)) ∣ num := by
      rw [← hcast]
      exact_mod_cast hpd
    rcases (by omega : p % 6 = 5 ∨ p % 6 = 1) with hm | hm
    · obtain ⟨k, hk⟩ : ∃ k : Nat, p = 5 + 6 * k := ⟨(p - 5) / 6, by omega⟩
      have hnn : (5 + 6 * k) * (5 + 6 * k) ≤ n := by
        calc (5 + 6 * k) * (5 + 6 * k) = p * p := by rw [hk]
          _ ≤ n := hsq
      have hkk : (5 + 6 * (k : Int)) * (5 + 6 * (k : Int)) ≤ num := by
        rw [← hcast]
        exact_mod_cast hnn
      apply (hall k hkk).1
      have he : (5 + 6 * (k : Int)) = ((p : Int)) := by
        push_cast [hk]
        ring
      rw [he]
      exact Int.emod_eq_zero_of_dvd hpInt
    · have hp7 : 7 ≤ p := by omega
      obtain ⟨k, hk⟩ : ∃ k : Nat, p = 7 + 6 * k := ⟨(p - 7) / 6, by omega⟩
      have hnn : (5 + 6 * k) * (5 + 6 * k) ≤ n := by
        calc (5 + 6 * k) * (5 + 6 * k) ≤ (7 + 6 * k) * (7 + 6 * k) := by nlinarith
          _ = p * p := by rw [hk]
          _ ≤ n := hsq
      have hkk : (5 + 6 * (k : Int)) * (5 + 6 * (k : Int)) ≤ num := by
        rw [← hcast]
        exact_mod_cast hnn
      apply (hall k hkk).2
      have he : (5 + 6 * (k : Int) + 2) = ((p : Int)) := by
        push_cast [hk]
        ring
      rw [he]
      exact Int.emod_eq_zero_of_dvd hpInt
  · intro hpr k hk
    have hk' : (5 + 6 * k) * (5 + 6 * k) ≤ n := by
      rw [← hcast] at hk
      exact_mod_cast hk
    constructor
    · intro hmod
      have hdvd : (5 + 6 * (k : Int)) ∣ num := Int.dvd_of_emod_eq_zero hmod
      have hdn : (5 + 6 * k) ∣ n := by
        rw [← hcast] at hdvd
        exact_mod_cast hdvd
      rcases hpr.eq_one_or_self_of_dvd _ hdn with h | h
      · omega
      · nlinarith
    · intro hmod
      have hdvd : (5 + 6 * (k : Int) + 2) ∣ num := Int.dvd_of_emod_eq_zero hmod
      have hdn : (7 + 6 * k) ∣ n := by
        have he : (5 + 6 * (k : Int) + 2) = (((7 + 6 * k : Nat)) : Int) := by
          push_cast
          ring
        rw [he, ← hcast] at hdvd
        exact_mod_cast hdvd
      rcases hpr.eq_one_or_self_of_dvd _ hdn with h | h
      · omega
      · nlinarith

/-- Helper: full behaviour of the C `isPrime` on `Int`, stated against
`Nat.Prime` of the (nonnegative) tested value. -/
theorem isPrime_iff_prime (num : Int) :
    isPrime num = true ↔ (1 < num ∧ Nat.Prime num.toNat) := by
  rw [isPrime]
  by_cases h1 : num ≤ 1
  · rw [if_pos h1]
    refine ⟨fun h => absurd h (by simp), ?_⟩
    rintro ⟨hlt, _⟩
    omega
  · rw [if_neg h1]
    by_cases h3 : num ≤ 3
    · rw [if_pos h3]
      have h23 : num = 2 ∨ num = 3 := by omega
      refine ⟨fun _ => ⟨by omega, ?_⟩, fun _ => rfl⟩
      rcases h23 with rfl | rfl
      · decide
      · decide
    · rw [if_neg h3]
      by_cases hd : num % 2 = 0 ∨ num % 3 = 0
      · rw [if_pos hd]
        refine ⟨fun h => absurd h (by simp), ?_⟩
        rintro ⟨hlt, hpr⟩
        exfalso
        rcases hd with h | h
        · have hdn : 2 ∣ num.toNat := by omega
          rcases hpr.eq_one_or_self_of_dvd 2 hdn with he | he <;> omega
        · have hdn : 3 ∣ num.toNat := by omega
          rcases hpr.eq_one_or_self_of_dvd 3 hdn with he | he <;> omega
      · rw [if_neg hd]
        push_neg at hd
        have h5 : 5 ≤ num := by omega
        rw [isPrimeLoop_prime_iff num h5 hd.1 hd.2]
        exact ⟨fun h => ⟨by omega, h⟩, fun h => h.2⟩

/-- Helper: for `num > 1`, the spec's divisor-free description of primality
over the integers coincides with `Nat.Prime` of the value. -/
theorem int_prime_char (num : Int) (h : 1 < num) :
    (∀ d : Int, 1 ≤ d → d ∣ num → d = 1 ∨ d = num) ↔ Nat.Prime num.toNat := by
  have hcast : ((num.toNat : Int)) = num := by omega
  constructor
  · intro hd
    rw [Nat.prime_def]
    refine ⟨by omega, fun m hm => ?_⟩
    rcases Nat.eq_zero_or_pos m with rfl | hm0
    · have h0 := Nat.eq_zero_of_zero_dvd hm
      omega
    · have hdInt : ((m : Int)) ∣ num := by
        rw [← hcast]
        exact_mod_cast hm
      rcases hd m (by exact_mod_cast hm0) hdInt with he | he
      · left
        exact_mod_cast he
      · right
        rw [← hcast] at he
        exact_mod_cast he
  · intro hp d hd1 hdd
    have hdn : d.toNat ∣ num.toNat := by
      rw [← Int.natCast_dvd_natCast, Int.toNat_of_nonneg (by omega), hcast]
      exact hdd
    rcases hp.eq_one_or_self_of_dvd d.toNat hdn with he | he
    · left
      omega
    · right
      omega

/-- Helper: `isPrime 17 = true`, by running the test. -/
theorem isPrime_seventeen : isPrime 17 = true := by
  rw [isPrime, isPrimeLoop_unfold]
  norm_num

/-- Helper: `isPrime 18 = false`, by running the test. -/
theorem isPrime_eighteen : isPrime 18 = false := by
  rw [isPrime]
  norm_num

/-- Helper: the C two-pointer swap loop computes exactly `List.reverse`. -/
theorem reverseString_eq_reverse (s : List Char) :
    reverseString s = s.reverse := by
  have hlen : (reverseString s).length = s.length := reverseString_length s
  apply List.ext_getElem (by rw [hlen, List.length_reverse])
  intro j h1 h2
  have hj : j < s.length := by rw [hlen] at h1; exact h1
  have hmir : s.length - 1 - j < s.length := by omega
  calc (reverseString s)[j]
      = (reverseString s).getD j ' ' := (getD_eq_getElem_of_lt _ j h1 ' ').symm
    _ = s.getD (s.length - 1 - j) ' ' := reverseString_getD s j hj
    _ = s[s.length - 1 - j] := getD_eq_getElem_of_lt s _ hmir ' '
    _ = s.reverse[j] := (List.getElem_reverse h2).symm

/-- Helper: reversing the demonstration buffer "Hello World". -/
theorem reverseString_hello :
    reverseString ("Hello World".data) = ("dlroW olleH".data) := by
  rw [reverseString_eq_reverse]
  decide

/-- Helper: the loop demonstration's characters, with the trailing space that
`printf("%d ", i)` emits after the final iteration. -/
theorem loopOutput_eq : loopOutput = "1 2 3 4 5 6 7 8 9 10 " := by
  decide

/-- Helper: the array summation loop totals 45. -/
theorem arraySum_eq : arraySum = 45 := by
  decide

/-- Helper: the exact average of the demonstration array is 5. -/
theorem arrayAverage_eq : arrayAverage = 5 := by
  rw [arrayAverage, arraySum, numbers]
  norm_num

/-- Helper: `%.2f` rendering of the exact value 5 is "5.00". -/
theorem formatFixed2_five : formatFixed2 5 = "5.00" := by
  rw [formatFixed2]
  have h1 : (5 : Rat) * 100 = (500 : Rat) := by norm_num
  rw [h1, round_ofNat]
  decide

set_option maxRecDepth 8192 in
/-- Helper: the complete standard-output text of the driver. -/
theorem mainOutput_eq :
    mainOutput =
      "Welcome to the C Programming Demo!\n" ++
      "===================================\n\n" ++
      "1. Factorial of 5: 120\n" ++
      "2. Is 17 prime? Yes\n" ++
      "3. Original string: Hello World\n" ++
      "   Reversed string: dlroW olleH\n" ++
      "4. Numbers 1-10: 1 2 3 4 5 6 7 8 9 10 \n" ++
      "5. Array sum: 45\n" ++
      "   Array average: 5.00\n" ++
      "\nProgram completed successfully!\n" := by
  rw [mainOutput, factorial_five, isPrime_seventeen, reverseString_hello,
    loopOutput_eq, arraySum_eq, arrayAverage_eq, formatFixed2_five]
  decide

/-- C1: for every integer `num`, `isPrime num` returns true if and only if
`num` is prime — `num > 1` with no divisor other than 1 and itself; in
particular `isPrime 0`, `isPrime 1` and `isPrime` of any negative integer are
false, `isPrime 17` is true and `isPrime 18` is false.  The model uses exact
integer arithmetic, so the equivalence holds for every integer, covering all
values representable in the chosen integer width. -/
theorem isPrime_correct :
    (∀ num : Int, isPrime num = true ↔
      (1 < num ∧ ∀ d : Int, 1 ≤ d → d ∣ num → d = 1 ∨ d = num)) ∧
    isPrime 0 = false ∧ isPrime 1 = false ∧
    (∀ num : Int, num < 0 → isPrime num = false) ∧
    isPrime 17 = true ∧ isPrime 18 = false := by
  have hiff : ∀ num : Int, isPrime num = true ↔
      (1 < num ∧ ∀ d : Int, 1 ≤ d → d ∣ num → d = 1 ∨ d = num) := by
    intro num
    rw [isPrime_iff_prime num]
    constructor
    · rintro ⟨h, hp⟩
      exact ⟨h, (int_prime_char num h).mpr hp⟩
    · rintro ⟨h, hd⟩
      exact ⟨h, (int_prime_char num h).mp hd⟩
  refine ⟨hiff, ?_, ?_, ?_, isPrime_seventeen, isPrime_eighteen⟩
  · rw [isPrime]
    norm_num
  · rw [isPrime]
    norm_num
  · intro num h
    rw [isPrime, if_pos (by omega)]

/-- Witness for C1 at the concrete input `-5`: the hypothesis `num < 0` of the
negative-input conjunct is discharged at `-5`. -/
theorem isPrime_correct_witness : (-5 : Int) < 0 ∧ isPrime (-5) = false :=
  ⟨by decide, isPrime_correct.2.2.2.1 (-5) (by decide)⟩

/-- C2: `reverseString` reverses the buffer in place — afterwards the
character at index `i` equals the original character at index `len - 1 - i`
for every `i < len`; reversing "Hello World" yields "dlroW olleH"; buffers of
length 0 or 1 are left unchanged. -/
theorem reverseString_spec :
    (∀ (s : List Char) (i : Nat), i < s.length →
        (reverseString s).getD i ' ' = s.getD (s.length - 1 - i) ' ') ∧
    reverseString ("Hello World".data) = ("dlroW olleH".data) ∧
    (∀ s : List Char, s.length ≤ 1 → reverseString s = s) := by
  refine ⟨fun s i h => reverseString_getD s i h, reverseString_hello,
    fun s h => ?_⟩
  rw [reverseString_eq_reverse]
  rcases s with _ | ⟨a, s2⟩
  · rfl
  · rcases s2 with _ | ⟨b, t⟩
    · rfl
    · simp at h

/-- Witness for C2 at concrete inputs: the index hypothesis is discharged at
`i = 0` on the two-character buffer `['a', 'b']`, and the short-buffer
hypothesis at the one-character buffer `['c']`. -/
theorem reverseString_spec_witness :
    ((0 : Nat) < (['a', 'b'] : List Char).length ∧
      (reverseString ['a', 'b']).getD 0 ' ' =
        (['a', 'b'] : List Char).getD ((['a', 'b'] : List Char).length - 1 - 0) ' ') ∧
    ((['c'] : List Char).length ≤ 1 ∧ reverseString ['c'] = ['c']) :=
  ⟨⟨by decide, reverseString_spec.1 ['a', 'b'] 0 (by decide)⟩,
   ⟨by decide, reverseString_spec.2.2 ['c'] (by decide)⟩⟩

/-- C3: for every integer `n ≤ 1` — so for 0, 1 and every negative `n` —
`factorial n` returns 1 (the `n <= 1` base case). -/
theorem factorial_base_case (n : Int) (h : n ≤ 1) : factorial n = 1 :=
  factorial_of_le_one n h

/-- Witness for C3 at the concrete input `-7`. -/
theorem factorial_base_case_witness : (-7 : Int) ≤ 1 ∧ factorial (-7) = 1 :=
  ⟨by decide, factorial_base_case (-7) (by decide)⟩

/-- C4: for every integer `n ≥ 2`, `factorial n = n * factorial (n - 1)`, and
`factorial 5 = 120`.  The model computes with exact integers, so the
recurrence holds on all of the non-overflowing range the claim speaks of. -/
theorem factorial_recurrence :
    (∀ n : Int, 2 ≤ n → factorial n = n * factorial (n - 1)) ∧
    factorial 5 = 120 := by
  refine ⟨fun n hn => ?_, factorial_five⟩
  rw [factorial_unfold, if_neg (by omega)]

/-- Witness for C4 at the concrete input `5`. -/
theorem factorial_recurrence_witness :
    2 ≤ (5 : Int) ∧ factorial 5 = 5 * factorial (5 - 1) :=
  ⟨by decide, factorial_recurrence.1 5 (by decide)⟩

/-- C5: `reverseString` is an involution — applying it twice restores the
original buffer. -/
theorem reverseString_involution (s : List Char) :
    reverseString (reverseString s) = s := by
  rw [reverseString_eq_reverse, reverseString_eq_reverse, List.reverse_reverse]

/-- C6: the driver's array demonstration over `{3,7,1,9,4,6,2,8,5}` computes
the sum 45, the exact average 5, and the two-decimal rendering "5.00". -/
theorem array_sum_average :
    arraySum = 45 ∧ arrayAverage = 5 ∧ formatFixed2 arrayAverage = "5.00" :=
  ⟨arraySum_eq, arrayAverage_eq, by rw [arrayAverage_eq, formatFixed2_five]⟩

/-- C7 counterexample: the loop demonstration does not print exactly
"1 2 3 4 5 6 7 8 9 10" — `printf("%d ", i)` leaves a trailing space after the
final 10. -/
theorem loopOutput_ne_exact : ¬loopOutput = "1 2 3 4 5 6 7 8 9 10" := by
  decide

/-- C7 (amended): the loop demonstration prints the integers 1 through 10
space-separated, with one trailing space: "1 2 3 4 5 6 7 8 9 10 ". -/
theorem loopOutput_value : loopOutput = "1 2 3 4 5 6 7 8 9 10 " :=
  loopOutput_eq

/-- C8: the driver always completes: it performs all five demonstrations in
fixed order on the hardcoded inputs, producing exactly this output text, and
terminates with the success exit status 0 unconditionally. -/
theorem main_driver :
    mainOutput =
      "Welcome to the C Programming Demo!\n" ++
      "===================================\n\n" ++
      "1. Factorial of 5: 120\n" ++
      "2. Is 17 prime? Yes\n" ++
      "3. Original string: Hello World\n" ++
      "   Reversed string: dlroW olleH\n" ++
      "4. Numbers 1-10: 1 2 3 4 5 6 7 8 9 10 \n" ++
      "5. Array sum: 45\n" ++
      "   Array average: 5.00\n" ++
      "\nProgram completed successfully!\n" ∧
    mainExit = 0 :=
  ⟨mainOutput_eq, rfl⟩

/-- C9: `factorial` terminates on every integer input: the fuel-instrumented
recursion reaches the `n <= 1` base case within finite call depth — depth 1
(no recursive call) when `n ≤ 1`, and depth `n` (that is, `n - 1` recursive
calls) when `n ≥ 2` — and computes `factorial n`. -/
theorem factorial_terminates (n : Int) :
    (∃ fuel : Nat, factorialFuel fuel n = some (factorial n)) ∧
    (n ≤ 1 → factorialFuel 1 n = some (factorial n)) ∧
    (1 < n → factorialFuel n.toNat n = some (factorial n)) := by
  refine ⟨⟨max 1 n.toNat, factorialFuel_eq _ n (by omega) (by omega)⟩, ?_, ?_⟩
  · intro h
    exact factorialFuel_eq 1 n (by omega) (by omega)
  · intro h
    exact factorialFuel_eq n.toNat n (by omega) (by omega)

/-- Witness for C9 at the concrete inputs `0` (immediate base case) and `5`
(base case after 4 recursive calls). -/
theorem factorial_terminates_witness :
    factorialFuel 1 0 = some (factorial 0) ∧
    factorialFuel (Int.toNat 5) 5 = some (factorial 5) :=
  ⟨(factorial_terminates 0).2.1 (by decide), (factorial_terminates 5).2.2 (by decide)⟩

/-- C10: `reverseString` preserves the buffer's length and its multiset of
characters: the result is a permutation of the original with equal character
counts (and, the length being preserved, the terminator's position — one past
the modelled buffer — is unchanged). -/
theorem reverseString_preserves (s : List Char) :
    (reverseString s).length = s.length ∧
    (reverseString s).Perm s ∧
    ∀ c : Char, (reverseString s).count c = s.count c := by
  rw [reverseString_eq_reverse]
  exact ⟨List.length_reverse s, List.reverse_perm s,
    fun c => (List.reverse_perm s).count_eq c⟩
